import Mathlib

/-!
Verification of the shot-performance analysis core against its sources:
tensor builders (data_loader.py, bleague_data_loader.py), the two-stage
normalizer and contribution mapper (analysis.py), and the aggregation
queries (aggregations.py, routes.py).  Machine floats are idealized as
exact rationals.
-/

namespace ShotPerf

/-- One shot event, as consumed by the tensor builders after the loaders
have produced GAME_ID, ELAPSED_SEC, LOC_X, LOC_Y, SHOT_MADE_FLAG and the
3PT flag (from SHOT_TYPE / IS_3PT). -/
structure ShotEvent where
  gameId : Int
  elapsed : Nat
  locX : ℚ
  locY : ℚ
  made : Bool
  is3pt : Bool

/-- Edge i of np.linspace(-250, 250, grid_x_bins + 1). -/
def xEdge (gx : ℕ) (i : ℕ) : ℚ := -250 + 500 * i / gx

/-- Edge i of np.linspace(-47.5, 422.5, grid_y_bins + 1). -/
def yEdge (gy : ℕ) (i : ℕ) : ℚ := -95/2 + 470 * i / gy

/-- The full x-edge list (gx+1 edges). -/
def xEdges (gx : ℕ) : List ℚ := (List.range (gx + 1)).map (xEdge gx)

/-- The full y-edge list (gy+1 edges). -/
def yEdges (gy : ℕ) : List ℚ := (List.range (gy + 1)).map (yEdge gy)

/-- np.digitize(v, edges) for increasing edges (right=False): the number
of edges that are ≤ v. -/
def digitize (edges : List ℚ) (v : ℚ) : ℕ :=
  edges.countP (fun a => decide (a ≤ v))

/-- x_bin = np.digitize(LOC_X, x_edges) - 1. -/
def xBin (gx : ℕ) (v : ℚ) : ℤ := (digitize (xEdges gx) v : ℤ) - 1

/-- y_bin = np.digitize(LOC_Y, y_edges) - 1. -/
def yBin (gy : ℕ) (v : ℚ) : ℤ := (digitize (yEdges gy) v : ℤ) - 1

/-- time_bin = ELAPSED_SEC // time_bin_seconds. -/
def timeBin (binSec : ℕ) (e : ShotEvent) : ℕ := e.elapsed / binSec

/-- The in-grid filter applied by every builder:
0 ≤ x_bin < grid_x_bins and 0 ≤ y_bin < grid_y_bins. -/
def inGrid (gx gy : ℕ) (e : ShotEvent) : Bool :=
  decide (0 ≤ xBin gx e.locX ∧ xBin gx e.locX < gx ∧
    0 ≤ yBin gy e.locY ∧ yBin gy e.locY < gy)

/-- Flattened spatial cell: y_bin * grid_x_bins + x_bin (row-major reshape
of the (y, x) grid). -/
def cellIdx (gx gy : ℕ) (e : ShotEvent) : ℤ :=
  yBin gy e.locY * gx + xBin gx e.locX

/-- num_time_bins = ceil(total_duration / time_bin_seconds). -/
def numTimeBins (total binSec : ℕ) : ℕ := (total + binSec - 1) / binSec

/-- An event is retained at slot (t, c) of the row for game gid when it
passes the in-grid filter, its time bin is t, t is inside the configured
bin count (the builders skip events with time_bin ≥ num_time_bins), and
its flattened cell is c. -/
def retainedAt (gx gy binSec bins : ℕ) (gid : ℤ) (t c : ℕ)
    (e : ShotEvent) : Bool :=
  decide (e.gameId = gid ∧ inGrid gx gy e = true ∧
    timeBin binSec e = t ∧ t < bins ∧ cellIdx gx gy e = (c : ℤ))

/-- Channel 0 accumulation: +1 per retained event. -/
def attemptsAt (gx gy binSec bins : ℕ) (es : List ShotEvent) (gid : ℤ)
    (t c : ℕ) : ℚ :=
  (es.countP (retainedAt gx gy binSec bins gid t c) : ℚ)

/-- Channel 1 accumulation: +1 per retained made event. -/
def makesAt (gx gy binSec bins : ℕ) (es : List ShotEvent) (gid : ℤ)
    (t c : ℕ) : ℚ :=
  (es.countP (fun e => retainedAt gx gy binSec bins gid t c e && e.made) : ℚ)

/-- Channel 2 accumulation: +3 (3PT) or +2 per retained made event. -/
def pointsAt (gx gy binSec bins : ℕ) (es : List ShotEvent) (gid : ℤ)
    (t c : ℕ) : ℚ :=
  ((es.filter (fun e => retainedAt gx gy binSec bins gid t c e && e.made)).map
    (fun e => if e.is3pt then (3 : ℚ) else 2)).sum

/-- Channel 3 accumulation: +1.5 (3PT) or +1 per retained made event. -/
def efgAt (gx gy binSec bins : ℕ) (es : List ShotEvent) (gid : ℤ)
    (t c : ℕ) : ℚ :=
  ((es.filter (fun e => retainedAt gx gy binSec bins gid t c e && e.made)).map
    (fun e => if e.is3pt then (3/2 : ℚ) else 1)).sum

/-- Per-event miss accumulation (what the builders deliberately do NOT do;
used to show the post-pass subtraction agrees with it). -/
def perEventMissesAt (gx gy binSec bins : ℕ) (es : List ShotEvent) (gid : ℤ)
    (t c : ℕ) : ℚ :=
  (es.countP (fun e => retainedAt gx gy binSec bins gid t c e && !e.made) : ℚ)

/-- NBA total game duration in seconds (4 quarters of 720 s). -/
def nbaTotalDuration : ℕ := 2880

/-- B.League total game duration in seconds (4 periods of 600 s). -/
def bleagueTotalDuration : ℕ := 2400

/-- Channel count of make_game_time_space_tensor_both (data_loader.py):
attempts, makes, points, efg_weights, misses. -/
def nbaNumChannels : ℕ := 5

/-- Channel count of make_bleague_tensor (bleague_data_loader.py):
attempts, makes, points, efg_weights, misses, frequency. -/
def bleagueNumChannels : ℕ := 6

/-- The value at (game gid, time t, cell c, channel ch) of the tensor
built by make_game_time_space_tensor_both.  Misses (channel 4) are set
after the accumulation pass as channel 0 minus channel 1. -/
def nbaChannelAt (gx gy binSec : ℕ) (es : List ShotEvent) (gid : ℤ)
    (t c : ℕ) (ch : Fin nbaNumChannels) : ℚ :=
  let bins := numTimeBins nbaTotalDuration binSec
  if ch.val = 0 then attemptsAt gx gy binSec bins es gid t c
  else if ch.val = 1 then makesAt gx gy binSec bins es gid t c
  else if ch.val = 2 then pointsAt gx gy binSec bins es gid t c
  else if ch.val = 3 then efgAt gx gy binSec bins es gid t c
  else attemptsAt gx gy binSec bins es gid t c -
    makesAt gx gy binSec bins es gid t c

/-- The value at (game gid, time t, cell c, channel ch) of the tensor
built by make_bleague_tensor.  Misses (channel 4) are set after the
accumulation pass as channel 0 minus channel 1, and frequency (channel 5)
is initialized as a copy of channel 0. -/
def bleagueChannelAt (gx gy binSec : ℕ) (es : List ShotEvent) (gid : ℤ)
    (t c : ℕ) (ch : Fin bleagueNumChannels) : ℚ :=
  let bins := numTimeBins bleagueTotalDuration binSec
  if ch.val = 0 then attemptsAt gx gy binSec bins es gid t c
  else if ch.val = 1 then makesAt gx gy binSec bins es gid t c
  else if ch.val = 2 then pointsAt gx gy binSec bins es gid t c
  else if ch.val = 3 then efgAt gx gy binSec bins es gid t c
  else if ch.val = 4 then attemptsAt gx gy binSec bins es gid t c -
    makesAt gx gy binSec bins es gid t c
  else attemptsAt gx gy binSec bins es gid t c

/-! ## Normalizer (standardize_tensor_for_tulca, analysis.py) -/

/-- A 4-D tensor (games, time, space, channels); at least one channel so
that the attempts channel (index 0) always exists, as every caller's
tensor does. -/
def Tensor (T S V C : ℕ) : Type :=
  Fin T → Fin S → Fin V → Fin (C + 1) → ℚ

/-- total_attempts[g] = tensor[g, :, :, 0].sum(axis=(1, 2)). -/
def totalAttempts {T S V C : ℕ} (ten : Tensor T S V C) (g : Fin T) : ℚ :=
  ∑ s : Fin S, ∑ v : Fin V, ten g s v 0

/-- The divisor actually used by volume normalization: the game's total
attempts, with 0 replaced by 1. -/
def volDivisor {T S V C : ℕ} (ten : Tensor T S V C) (g : Fin T) : ℚ :=
  if totalAttempts ten g = 0 then 1 else totalAttempts ten g

/-- Step 1 of standardize_tensor_for_tulca: divide channel 5 (frequency)
by the game's total attempts; all other channels are copied.  (The code
guards with C_ > 5, which holds exactly when a channel of index 5
exists.) -/
def volumeNormalize {T S V C : ℕ} (ten : Tensor T S V C) : Tensor T S V C :=
  fun g s v c =>
    if c.val = 5 then ten g s v c / volDivisor ten g else ten g s v c

/-- Across-game mean of one (time, cell, channel) column. -/
def colMean {T S V C : ℕ} (ten : Tensor T S V C) (s : Fin S) (v : Fin V)
    (c : Fin (C + 1)) : ℚ :=
  (∑ g : Fin T, ten g s v c) / T

/-- Across-game (population) variance of one column, as StandardScaler
computes it. -/
def colVar {T S V C : ℕ} (ten : Tensor T S V C) (s : Fin S) (v : Fin V)
    (c : Fin (C + 1)) : ℚ :=
  (∑ g : Fin T, (ten g s v c - colMean ten s v c) ^ 2) / T

/-- Step 2 of standardize_tensor_for_tulca: per-column z-scoring
(x - mean) / scale, where the scale function is supplied abstractly (the
code's scale is the floating square root of the column variance, with
zero variance mapped to scale 1). -/
def zscoreWith {T S V C : ℕ} (ten : Tensor T S V C)
    (σ : Fin S → Fin V → Fin (C + 1) → ℚ) : Tensor T S V C :=
  fun g s v c => (ten g s v c - colMean ten s v c) / σ s v c

/-- Characterization of StandardScaler's scale_: the square root of the
per-column variance, with zero variance replaced by 1
(_handle_zeros_in_scale). -/
def IsScalerScale {T S V C : ℕ} (ten : Tensor T S V C)
    (σ : Fin S → Fin V → Fin (C + 1) → ℚ) : Prop :=
  ∀ s v c, (colVar ten s v c = 0 → σ s v c = 1) ∧
    (colVar ten s v c ≠ 0 →
      σ s v c ^ 2 = colVar ten s v c ∧ 0 < σ s v c)

/-! ## Aggregator (aggregations.py and the aggregate_cluster route) -/

/-- A raw tensor for aggregation purposes: channels 0..3 (attempts,
makes, points, efg_weights) always exist, as in every built tensor. -/
def RawTensor (G T V C : ℕ) : Type :=
  Fin G → Fin T → Fin V → Fin (C + 4) → ℚ

/-- aggregate_cluster_counts_raw: sum the given channel over the selected
games; an empty selection means all games. -/
def aggCounts {G T V C : ℕ} (ten : RawTensor G T V C) (sel : List (Fin G))
    (ch : Fin (C + 4)) (t : Fin T) (v : Fin V) : ℚ :=
  if sel.isEmpty then ∑ g : Fin G, ten g t v ch
  else (sel.map (fun g => ten g t v ch)).sum

/-- The numerator channel used by aggregate_cluster_prob_raw:
channel 2 if weighted else channel 1. -/
def probNumChannel (C : ℕ) (weighted : Bool) : Fin (C + 4) :=
  if weighted then ⟨2, by omega⟩ else ⟨1, by omega⟩

/-- aggregate_cluster_prob_raw: the (probability, attempts) pair, with the
ratio zero-filled wherever attempts is not positive (np.divide with
where=(attempts > 0) and a zero out array). -/
def aggProbRaw {G T V C : ℕ} (ten : RawTensor G T V C) (sel : List (Fin G))
    (weighted : Bool) :
    (Fin T → Fin V → ℚ) × (Fin T → Fin V → ℚ) :=
  let att := aggCounts ten sel ⟨0, by omega⟩
  let num := aggCounts ten sel (probNumChannel C weighted)
  (fun t v => if 0 < att t v then num t v / att t v else 0, att)

/-- The aggregate_cluster route, probability branch, with a time bin:
the [cell] slice of the ratio map at that bin. -/
def aggregateValuesAtBin {G T V C : ℕ} (ten : RawTensor G T V C)
    (sel : List (Fin G)) (weighted : Bool) (tb : Fin T) (v : Fin V) : ℚ :=
  (aggProbRaw ten sel weighted).1 tb v

/-- The aggregate_cluster route, probability branch, aggregated over all
time: numerator summed over time (channel 3 if weighted else channel 1)
divided once by attempts summed over time, zero-filled. -/
def aggregateValuesAllTime {G T V C : ℕ} (ten : RawTensor G T V C)
    (sel : List (Fin G)) (weighted : Bool) (v : Fin V) : ℚ :=
  let numCh : Fin (C + 4) := if weighted then ⟨3, by omega⟩ else ⟨1, by omega⟩
  let num := ∑ t : Fin T, aggCounts ten sel numCh t v
  let att := ∑ t : Fin T, aggCounts ten sel ⟨0, by omega⟩ t v
  if 0 < att then num / att else 0

/-! ## ContributionMapper (analysis.py) -/

/-- create_binary_classification_data: X is the cluster-1 rows of the
scaled latent matrix followed by the cluster-2 rows. -/
def classificationX {G F : ℕ} (c1 c2 : List (Fin G))
    (scaled : Fin G → Fin F → ℚ) : List (Fin F → ℚ) :=
  (c1 ++ c2).map scaled

/-- create_binary_classification_data: y is ones for cluster 1 followed
by zeros for cluster 2. -/
def classificationY {G : ℕ} (c1 c2 : List (Fin G)) : List ℕ :=
  List.replicate c1.length 1 ++ List.replicate c2.length 0

/-- compute_feature_importance, with the RandomForest itself abstracted
as a function rf from (X, y) to an importance vector: if X has fewer than
5 rows or y has fewer than 2 distinct labels, return the all-zero vector
without training. -/
def computeFeatureImportance {F : ℕ}
    (rf : List (Fin F → ℚ) → List ℕ → (Fin F → ℚ))
    (X : List (Fin F → ℚ)) (y : List ℕ) : Fin F → ℚ :=
  if X.length < 5 ∨ y.dedup.length < 2 then fun _ => 0 else rf X y

/-- Reshape of a flat vector of length s·v into an (s, v) matrix, row
major: entry (a, b) is component a·v + b. -/
def reshapeVec {s v : ℕ} (imp : Fin (s * v) → ℚ) :
    Matrix (Fin s) (Fin v) ℚ :=
  fun a b => imp (finProdFinEquiv (a, b))

/-- np.kron of an (S×s) and a (V×v) matrix, with numpy's row-major flat
indexing: entry (i1·V + i2, j1·v + j2) is Mt[i1,j1] · Mv[i2,j2]. -/
def kron {S V s v : ℕ} (Mt : Matrix (Fin S) (Fin s) ℚ)
    (Mv : Matrix (Fin V) (Fin v) ℚ) :
    Matrix (Fin (S * V)) (Fin (s * v)) ℚ :=
  fun i j => Mt i.divNat j.divNat * Mv i.modNat j.modNat

/-- The bilinear back-projection Mt @ reshape(importance, (s, v)) @ Mv.T
followed by the elementwise absolute value, as compute_contribution_tensor
performs it. -/
def bilinearBackProject {S V s v : ℕ} (Mt : Matrix (Fin S) (Fin s) ℚ)
    (Mv : Matrix (Fin V) (Fin v) ℚ) (imp : Fin (s * v) → ℚ) :
    Matrix (Fin S) (Fin V) ℚ :=
  Mt * reshapeVec imp * Mv.transpose

/-- The Kronecker-form back-projection: kron(Mt, Mv) @ importance,
reshaped to (S, V) row major (the commented-out variant in
compute_contribution_tensor). -/
def kronBackProject {S V s v : ℕ} (Mt : Matrix (Fin S) (Fin s) ℚ)
    (Mv : Matrix (Fin V) (Fin v) ℚ) (imp : Fin (s * v) → ℚ) :
    Matrix (Fin S) (Fin V) ℚ :=
  fun i k => (kron Mt Mv).mulVec imp (finProdFinEquiv (i, k))

/-- The default of the normalize_zscore parameter of
compute_contribution_tensor. -/
def normalizeZscoreDefault : Bool := true

/-- compute_contribution_tensor: build (X, y), get the importance vector,
reshape it to (s, v), back-project bilinearly, and take the absolute
value.  The normalize_zscore flag is accepted but the z-scoring block is
commented out in the source, so the flag does not affect the result. -/
def computeContributionTensor {G S V s v : ℕ} (c1 c2 : List (Fin G))
    (scaled : Fin G → Fin (s * v) → ℚ)
    (Mt : Matrix (Fin S) (Fin s) ℚ) (Mv : Matrix (Fin V) (Fin v) ℚ)
    (rf : List (Fin (s * v) → ℚ) → List ℕ → (Fin (s * v) → ℚ))
    (normalizeZscore : Bool := normalizeZscoreDefault) :
    Matrix (Fin S) (Fin V) ℚ :=
  let X := classificationX c1 c2 scaled
  let y := classificationY c1 c2
  let importance := computeFeatureImportance rf X y
  fun i k => |bilinearBackProject Mt Mv importance i k|

/-- Mean of all entries of an (S, V) map. -/
def mapMean {S V : ℕ} (M : Matrix (Fin S) (Fin V) ℚ) : ℚ :=
  (∑ i : Fin S, ∑ k : Fin V, M i k) / (S * V)

/-! ## Concrete instances used by counterexamples and witnesses -/

/-- A raw tensor with one game, one time bin, one cell and the four core
channels, recording a single made 2-point shot: attempts 1, makes 1,
points 2, efg_weight 1. -/
def oneMadeTwoTensor : RawTensor 1 1 1 0 := fun _ _ _ ch =>
  if ch.val = 0 then 1 else if ch.val = 1 then 1
  else if ch.val = 2 then 2 else 1

/-- Cluster 1 for the contribution-map instances: three of five games. -/
def exCluster1 : List (Fin 5) := [0, 1, 2]

/-- Cluster 2 for the contribution-map instances: the other two games. -/
def exCluster2 : List (Fin 5) := [3, 4]

/-- A latent feature matrix over five games with one latent feature. -/
def exScaled : Fin 5 → Fin (1 * 1) → ℚ := fun _ _ => 0

/-- A 1×1 time projection matrix. -/
def exMt : Matrix (Fin 1) (Fin 1) ℚ := fun _ _ => 1

/-- A 2×1 space projection matrix with distinct rows. -/
def exMv : Matrix (Fin 2) (Fin 1) ℚ := fun i _ => if i.val = 0 then 1 else 3

/-- A stand-in importance estimator returning the constant vector 1. -/
def exRf : List (Fin (1 * 1) → ℚ) → List ℕ → (Fin (1 * 1) → ℚ) :=
  fun _ _ _ => 1

/-- A stand-in importance estimator returning the constant vector 37,
used to show the degenerate guard never calls the estimator. -/
def exRf37 : List (Fin (1 * 1) → ℚ) → List ℕ → (Fin (1 * 1) → ℚ) :=
  fun _ _ _ => 37

/-- A 1-game, 1-time, 1-cell, 6-channel tensor with 2 attempts in
channel 0 and value 7 in the frequency channel 5. -/
def volTen : Tensor 1 1 1 5 := fun _ _ _ c =>
  if c.val = 0 then 2 else 7

/-- A 2-game, single-column tensor whose column is (0, 2): mean 1,
variance 1. -/
def zTen : Tensor 2 1 1 0 := fun g _ _ _ => if g.val = 0 then 0 else 2

/-- The scaler scale for zTen: the square root of its variance 1. -/
def zSigma : Fin 1 → Fin 1 → Fin 1 → ℚ := fun _ _ _ => 1

/-- An event at the exact end of a B.League game (period 4, zero seconds
remaining): elapsed = 2400. -/
def endOfGameEvent : ShotEvent :=
  { gameId := 1, elapsed := 2400, locX := 0, locY := 0,
    made := true, is3pt := false }

/-! ## Helper lemmas -/

theorem divNat_finPair {m n : ℕ} (a : Fin m) (b : Fin n) :
    Fin.divNat (finProdFinEquiv (a, b)) = a := by
  have h := finProdFinEquiv.symm_apply_apply (a, b)
  rw [finProdFinEquiv_symm_apply] at h
  exact congrArg Prod.fst h

theorem modNat_finPair {m n : ℕ} (a : Fin m) (b : Fin n) :
    Fin.modNat (finProdFinEquiv (a, b)) = b := by
  have h := finProdFinEquiv.symm_apply_apply (a, b)
  rw [finProdFinEquiv_symm_apply] at h
  exact congrArg Prod.snd h

/-! ## Claim theorems -/

/-- C2: for every pair of projection matrices and every importance vector
of length s·v, the bilinear back-projection Mt @ reshape(importance,
(s,v)) @ Mv^T equals the Kronecker form reshape(kron(Mt, Mv) @
importance, (S,V)) elementwise: the two formulations are interchangeable
for 2 modes. -/
theorem C2_bilinear_eq_kron {S V s v : ℕ} (Mt : Matrix (Fin S) (Fin s) ℚ)
    (Mv : Matrix (Fin V) (Fin v) ℚ) (imp : Fin (s * v) → ℚ) :
    bilinearBackProject Mt Mv imp = kronBackProject Mt Mv imp := by
  funext i k
  have e2 : kronBackProject Mt Mv imp i k
      = ∑ j : Fin s, ∑ x : Fin v, Mt i j * Mv k x *
          imp (finProdFinEquiv (j, x)) := by
    rw [kronBackProject, Matrix.mulVec, Matrix.dotProduct]
    rw [← Equiv.sum_comp finProdFinEquiv
      (fun j => kron Mt Mv (finProdFinEquiv (i, k)) j * imp j)]
    rw [Fintype.sum_prod_type]
    refine Finset.sum_congr rfl fun j _ => Finset.sum_congr rfl fun x _ => ?_
    simp [kron, divNat_finPair, modNat_finPair]
  have e1 : bilinearBackProject Mt Mv imp i k
      = ∑ x : Fin v, (∑ j : Fin s, Mt i j * reshapeVec imp j x) * Mv k x := by
    simp [bilinearBackProject, Matrix.mul_apply, Matrix.transpose_apply]
  rw [e1, e2]
  rw [Finset.sum_comm]
  refine Finset.sum_congr rfl fun x _ => ?_
  rw [Finset.sum_mul]
  refine Finset.sum_congr rfl fun j _ => ?_
  rw [reshapeVec]
  ring

/-- C7: for every raw tensor and every selection (empty meaning all
rows), the probability query returns (ratio, attempts) with
ratio·attempts equal to the summed numerator channel wherever attempts is
positive, and ratio 0 wherever attempts is 0; the attempts component is
the channel-0 count.  No division by zero occurs, so no NaN or Inf
reaches the caller. -/
theorem C7_prob_query {G T V C : ℕ} (ten : RawTensor G T V C)
    (sel : List (Fin G)) (weighted : Bool) (t : Fin T) (v : Fin V) :
    (aggProbRaw ten sel weighted).2 = aggCounts ten sel ⟨0, by omega⟩ ∧
    (0 < (aggProbRaw ten sel weighted).2 t v →
      (aggProbRaw ten sel weighted).1 t v *
        (aggProbRaw ten sel weighted).2 t v
        = aggCounts ten sel (probNumChannel C weighted) t v) ∧
    ((aggProbRaw ten sel weighted).2 t v = 0 →
      (aggProbRaw ten sel weighted).1 t v = 0) := by
  refine ⟨rfl, ?_, ?_⟩
  · intro h
    have h' : 0 < aggCounts ten sel ⟨0, by omega⟩ t v := h
    simp only [aggProbRaw, if_pos h']
    exact div_mul_cancel₀ _ (ne_of_gt h')
  · intro h
    have h' : ¬ 0 < aggCounts ten sel ⟨0, by omega⟩ t v := by
      rw [show aggCounts ten sel ⟨0, by omega⟩ t v = 0 from h]
      exact lt_irrefl 0
    simp only [aggProbRaw, if_neg h']

theorem C7_prob_query_witness :
    (aggProbRaw oneMadeTwoTensor [] false).1 0 0 *
      (aggProbRaw oneMadeTwoTensor [] false).2 0 0
      = aggCounts oneMadeTwoTensor [] (probNumChannel 0 false) 0 0 :=
  (C7_prob_query oneMadeTwoTensor [] false 0 0).2.1 (by with_unfolding_all decide)

/-- C1 (divergence evidence): on a raw tensor with one game, exactly one
time bin and one cell holding a single made 2-point shot, the weighted
probability query restricted to time bin 0 returns 2 (points channel 2
over attempts) while the aggregate-over-all-time branch returns 1
(EFG-weight channel 3 over attempts): the two modes do not use the same
numerator channel. -/
theorem C1_weighted_modes_disagree :
    aggregateValuesAtBin oneMadeTwoTensor [] true 0 0 = 2 ∧
    aggregateValuesAllTime oneMadeTwoTensor [] true 0 = 1 ∧
    (2 : ℚ) ≠ 1 := by with_unfolding_all decide

/-- C8: whenever the combined sample count of the two clusters is below
5, or the combined label vector has fewer than two distinct classes, the
importance vector is all-zero (no classifier is trained) and the
contribution map is all-zero, for every importance estimator rf. -/
theorem C8_degenerate_zero {G S V s v : ℕ} (c1 c2 : List (Fin G))
    (scaled : Fin G → Fin (s * v) → ℚ)
    (Mt : Matrix (Fin S) (Fin s) ℚ) (Mv : Matrix (Fin V) (Fin v) ℚ)
    (rf : List (Fin (s * v) → ℚ) → List ℕ → (Fin (s * v) → ℚ)) (b : Bool)
    (h : c1.length + c2.length < 5 ∨
      (classificationY c1 c2).dedup.length < 2) :
    computeFeatureImportance rf (classificationX c1 c2 scaled)
      (classificationY c1 c2) = (fun _ => 0) ∧
    computeContributionTensor c1 c2 scaled Mt Mv rf b = 0 := by
  have hX : (classificationX c1 c2 scaled).length
      = c1.length + c2.length := by
    simp [classificationX]
  have himp : computeFeatureImportance rf (classificationX c1 c2 scaled)
      (classificationY c1 c2) = fun _ => 0 := by
    rw [computeFeatureImportance, if_pos]
    rcases h with h | h
    · exact Or.inl (by omega)
    · exact Or.inr h
  refine ⟨himp, ?_⟩
  funext i k
  have hentry : computeContributionTensor c1 c2 scaled Mt Mv rf b i k
      = |bilinearBackProject Mt Mv
          (computeFeatureImportance rf (classificationX c1 c2 scaled)
            (classificationY c1 c2)) i k| := rfl
  have hb : bilinearBackProject Mt Mv (fun _ => (0 : ℚ)) = 0 := by
    have hr : reshapeVec (fun _ => (0 : ℚ))
        = (0 : Matrix (Fin s) (Fin v) ℚ) := rfl
    rw [bilinearBackProject, hr, Matrix.mul_zero, Matrix.zero_mul]
  rw [hentry, himp, hb]
  simp

theorem C8_degenerate_zero_witness :
    computeContributionTensor (G := 2) [0] [1] (fun _ _ => 0)
      exMt exMv exRf37 true = 0 :=
  (C8_degenerate_zero [0] [1] (fun _ _ => 0) exMt exMv exRf37 true
    (Or.inl (by decide))).2

/-- C9 (amended): compute_contribution_tensor accepts a normalize_zscore
flag whose default is True, but the z-scoring block is commented out, so
the returned map is the unscaled absolute-value back-projection for
either flag value. -/
theorem C9_flag_inert {G S V s v : ℕ} (c1 c2 : List (Fin G))
    (scaled : Fin G → Fin (s * v) → ℚ)
    (Mt : Matrix (Fin S) (Fin s) ℚ) (Mv : Matrix (Fin V) (Fin v) ℚ)
    (rf : List (Fin (s * v) → ℚ) → List ℕ → (Fin (s * v) → ℚ))
    (b : Bool) :
    normalizeZscoreDefault = true ∧
    computeContributionTensor c1 c2 scaled Mt Mv rf b
      = (fun i k => |bilinearBackProject Mt Mv
          (computeFeatureImportance rf (classificationX c1 c2 scaled)
            (classificationY c1 c2)) i k|) ∧
    computeContributionTensor c1 c2 scaled Mt Mv rf b
      = computeContributionTensor c1 c2 scaled Mt Mv rf (!b) :=
  ⟨rfl, rfl, rfl⟩

/-- C9 (counterexample): the flag's default is True, not off, and with
normalize_zscore = true the returned map is not z-scored: on a concrete
non-degenerate input the map is (1, 3), whose mean is 2, not 0. -/
theorem C9_not_zscored :
    normalizeZscoreDefault = true ∧
    mapMean (computeContributionTensor exCluster1 exCluster2 exScaled
      exMt exMv exRf true) = 2 ∧
    (2 : ℚ) ≠ 0 := by with_unfolding_all decide

/-- C5: volume normalization changes only channel 5 (frequency), dividing
each game's per-cell value by that game's total attempts summed over all
time bins and cells, with divisor 1 substituted when the total is 0 (the
divisor is never 0, so no NaN); every other channel is returned
unchanged. -/
theorem C5_volume_normalization {T S V C : ℕ} (ten : Tensor T S V C)
    (g : Fin T) (s : Fin S) (v : Fin V) (c : Fin (C + 1)) :
    volDivisor ten g ≠ 0 ∧
    (c.val ≠ 5 → volumeNormalize ten g s v c = ten g s v c) ∧
    (c.val = 5 →
      (totalAttempts ten g = 0 → volumeNormalize ten g s v c = ten g s v c) ∧
      (totalAttempts ten g ≠ 0 →
        volumeNormalize ten g s v c * totalAttempts ten g = ten g s v c)) := by
  refine ⟨?_, ?_, ?_⟩
  · by_cases h : totalAttempts ten g = 0 <;> simp [volDivisor, h]
  · intro hc
    simp [volumeNormalize, hc]
  · intro hc
    constructor
    · intro h0
      simp [volumeNormalize, hc, volDivisor, h0]
    · intro hne
      simp only [volumeNormalize, hc, if_pos, volDivisor, if_neg hne]
      exact div_mul_cancel₀ _ hne

/-- C6: after per-channel z-scoring with the scaler's per-column scale,
every (time, cell, channel) column of the output has across-game mean 0;
a column whose input variance is nonzero has output variance 1 (hence
standard deviation 1), and a column whose input variance is 0 is mapped
to all zeros.  Statistics are per column by construction. -/
theorem C6_zscore_columns {T S V C : ℕ} (ten : Tensor T S V C)
    (σ : Fin S → Fin V → Fin (C + 1) → ℚ) (hT : 0 < T)
    (hσ : IsScalerScale ten σ) (s : Fin S) (v : Fin V) (c : Fin (C + 1)) :
    colMean (zscoreWith ten σ) s v c = 0 ∧
    (colVar ten s v c ≠ 0 → colVar (zscoreWith ten σ) s v c = 1) ∧
    (colVar ten s v c = 0 → ∀ g, zscoreWith ten σ g s v c = 0) := by
  have hTQ : (T : ℚ) ≠ 0 := Nat.cast_ne_zero.mpr hT.ne'
  have hsum0 : ∑ g : Fin T, (ten g s v c - colMean ten s v c) = 0 := by
    rw [Finset.sum_sub_distrib, Finset.sum_const, Finset.card_univ,
      Fintype.card_fin, nsmul_eq_mul, colMean, ← mul_div_assoc,
      mul_comm, mul_div_assoc, div_self hTQ, mul_one, sub_self]
  have hmean : colMean (zscoreWith ten σ) s v c = 0 := by
    rw [colMean]
    have hz : ∑ g : Fin T, zscoreWith ten σ g s v c
        = (∑ g : Fin T, (ten g s v c - colMean ten s v c)) / σ s v c := by
      rw [Finset.sum_div]
      rfl
    rw [hz, hsum0, zero_div, zero_div]
  refine ⟨hmean, ?_, ?_⟩
  · intro hne
    obtain ⟨hσ2, hσpos⟩ := (hσ s v c).2 hne
    have hσne : σ s v c ≠ 0 := ne_of_gt hσpos
    calc colVar (zscoreWith ten σ) s v c
        = (∑ g : Fin T,
            ((ten g s v c - colMean ten s v c) / σ s v c) ^ 2) / T := by
          simp only [colVar, hmean, sub_zero, zscoreWith]
      _ = ((∑ g : Fin T, (ten g s v c - colMean ten s v c) ^ 2)
            / (σ s v c) ^ 2) / T := by
          conv_rhs => rw [Finset.sum_div]
          congr 1
          exact Finset.sum_congr rfl fun g _ => div_pow _ _ 2
      _ = colVar ten s v c / (σ s v c) ^ 2 := by
          rw [div_right_comm, colVar]
      _ = 1 := by rw [← hσ2, div_self (pow_ne_zero 2 hσne)]
  · intro h0 g
    have hsum : ∑ g : Fin T, (ten g s v c - colMean ten s v c) ^ 2 = 0 := by
      rw [colVar, div_eq_zero_iff] at h0
      rcases h0 with h | h
      · exact h
      · exact absurd h hTQ
    have hterm : (ten g s v c - colMean ten s v c) ^ 2 = 0 :=
      (Finset.sum_eq_zero_iff_of_nonneg fun i _ => sq_nonneg _).mp hsum g
        (Finset.mem_univ g)
    have hz : ten g s v c - colMean ten s v c = 0 :=
      (pow_eq_zero_iff (two_ne_zero)).mp hterm
    rw [zscoreWith, hz, zero_div]

theorem C6_zscore_columns_witness :
    colMean (zscoreWith zTen zSigma) 0 0 0 = 0 ∧
    colVar (zscoreWith zTen zSigma) 0 0 0 = 1 :=
  ⟨(C6_zscore_columns zTen zSigma (by decide)
      (by unfold IsScalerScale; with_unfolding_all decide) 0 0 0).1,
   (C6_zscore_columns zTen zSigma (by decide)
      (by unfold IsScalerScale; with_unfolding_all decide) 0 0 0).2.1
     (by with_unfolding_all decide)⟩

theorem edge_mono_iff (a b : ℚ) (hb : 0 < b) (g : ℕ) (hg : 0 < g)
    (j i : ℕ) : a + b * (j : ℚ) / g ≤ a + b * (i : ℚ) / g ↔ j ≤ i := by
  have hgQ : (0 : ℚ) < g := by exact_mod_cast hg
  rw [add_le_add_iff_left, div_le_div_iff_of_pos_right hgQ,
    mul_le_mul_left hb, Nat.cast_le]

theorem countP_range_le (n i : ℕ) :
    (List.range n).countP (fun j => decide (j ≤ i)) = min n (i + 1) := by
  induction n with
  | zero => simp
  | succ n ih =>
    rw [List.range_succ, List.countP_append, ih]
    by_cases h : n ≤ i <;> simp [List.countP_cons, h] <;> omega

theorem xBin_edge (gx : ℕ) (hgx : 0 < gx) (i : ℕ) (hi : i < gx) :
    xBin gx (xEdge gx i) = i := by
  have hcount : digitize (xEdges gx) (xEdge gx i) = i + 1 := by
    rw [digitize, xEdges, List.countP_map]
    have hcongr : ∀ j ∈ List.range (gx + 1),
        ((fun a => decide (a ≤ xEdge gx i)) ∘ xEdge gx) j = true
          ↔ (fun j => decide (j ≤ i)) j = true := by
      intro j _
      simp only [Function.comp, decide_eq_true_eq]
      unfold xEdge
      exact edge_mono_iff (-250) 500 (by norm_num) gx hgx j i
    rw [List.countP_congr hcongr, countP_range_le]
    omega
  rw [xBin, hcount]
  push_cast
  omega

theorem yBin_edge (gy : ℕ) (hgy : 0 < gy) (i : ℕ) (hi : i < gy) :
    yBin gy (yEdge gy i) = i := by
  have hcount : digitize (yEdges gy) (yEdge gy i) = i + 1 := by
    rw [digitize, yEdges, List.countP_map]
    have hcongr : ∀ j ∈ List.range (gy + 1),
        ((fun a => decide (a ≤ yEdge gy i)) ∘ yEdge gy) j = true
          ↔ (fun j => decide (j ≤ i)) j = true := by
      intro j _
      simp only [Function.comp, decide_eq_true_eq]
      unfold yEdge
      exact edge_mono_iff (-95/2) 470 (by norm_num) gy hgy j i
    rw [List.countP_congr hcongr, countP_range_le]
    omega
  rw [yBin, hcount]
  push_cast
  omega

theorem xBin_top (gx : ℕ) (hgx : 0 < gx) : xBin gx 250 = gx := by
  have hgQ : ((gx : ℚ)) ≠ 0 := Nat.cast_ne_zero.mpr hgx.ne'
  have hend : xEdge gx gx = 250 := by
    unfold xEdge
    rw [mul_div_assoc, div_self hgQ, mul_one]
    norm_num
  have hall : ∀ a ∈ xEdges gx, (fun a => decide (a ≤ (250 : ℚ))) a = true := by
    intro a ha
    obtain ⟨j, hj, rfl⟩ := List.mem_map.mp ha
    have hj' : j < gx + 1 := List.mem_range.mp hj
    have hle : xEdge gx j ≤ xEdge gx gx := by
      unfold xEdge
      exact (edge_mono_iff (-250) 500 (by norm_num) gx hgx j gx).mpr (by omega)
    rw [← hend]
    exact decide_eq_true hle
  have hcount : digitize (xEdges gx) 250 = gx + 1 := by
    rw [digitize, List.countP_eq_length.mpr hall]
    simp [xEdges]
  rw [xBin, hcount]
  push_cast
  omega

theorem yBin_top (gy : ℕ) (hgy : 0 < gy) : yBin gy (845/2) = gy := by
  have hgQ : ((gy : ℚ)) ≠ 0 := Nat.cast_ne_zero.mpr hgy.ne'
  have hend : yEdge gy gy = 845/2 := by
    unfold yEdge
    rw [mul_div_assoc, div_self hgQ, mul_one]
    norm_num
  have hall : ∀ a ∈ yEdges gy,
      (fun a => decide (a ≤ (845/2 : ℚ))) a = true := by
    intro a ha
    obtain ⟨j, hj, rfl⟩ := List.mem_map.mp ha
    have hj' : j < gy + 1 := List.mem_range.mp hj
    have hle : yEdge gy j ≤ yEdge gy gy := by
      unfold yEdge
      exact (edge_mono_iff (-95/2) 470 (by norm_num) gy hgy j gy).mpr (by omega)
    rw [← hend]
    exact decide_eq_true hle
  have hcount : digitize (yEdges gy) (845/2) = gy + 1 := by
    rw [digitize, List.countP_eq_length.mpr hall]
    simp [yEdges]
  rw [yBin, hcount]
  push_cast
  omega

theorem retained_false_of_inGrid_false (gx gy binSec bins : ℕ) (gid : ℤ)
    (t c : ℕ) (e : ShotEvent) (h : inGrid gx gy e = false) :
    retainedAt gx gy binSec bins gid t c e = false := by
  rw [retainedAt]
  apply decide_eq_false
  rintro ⟨-, h2, -⟩
  rw [h] at h2
  exact Bool.false_ne_true h2

theorem inGrid_false_of_xBin_top (gx gy : ℕ) (e : ShotEvent)
    (hx : xBin gx e.locX = gx) : inGrid gx gy e = false := by
  rw [inGrid]
  apply decide_eq_false
  rintro ⟨-, hlt, -⟩
  rw [hx] at hlt
  exact lt_irrefl _ hlt

theorem inGrid_false_of_yBin_top (gx gy : ℕ) (e : ShotEvent)
    (hy : yBin gy e.locY = gy) : inGrid gx gy e = false := by
  rw [inGrid]
  apply decide_eq_false
  rintro ⟨-, -, -, hlt⟩
  rw [hy] at hlt
  exact lt_irrefl _ hlt

theorem retained_false_of_big_timeBin (gx gy binSec bins : ℕ) (gid : ℤ)
    (t c : ℕ) (e : ShotEvent) (h : bins ≤ timeBin binSec e) :
    retainedAt gx gy binSec bins gid t c e = false := by
  rw [retainedAt]
  apply decide_eq_false
  rintro ⟨-, -, ht, hb, -⟩
  omega

theorem timeBin_at_total (binSec total : ℕ) (hbin : 0 < binSec)
    (hdvd : binSec ∣ total) (e : ShotEvent) (he : e.elapsed = total) :
    timeBin binSec e = numTimeBins total binSec := by
  obtain ⟨q, rfl⟩ := hdvd
  rw [timeBin, he, numTimeBins, Nat.mul_div_cancel_left _ hbin,
    show binSec * q + binSec - 1 = (binSec - 1) + binSec * q from by omega,
    Nat.add_mul_div_left _ _ hbin, Nat.div_eq_of_lt (by omega)]
  omega

theorem channels_append_inert (gx gy binSec bins : ℕ) (e : ShotEvent)
    (h : ∀ gid t c, retainedAt gx gy binSec bins gid t c e = false)
    (es : List ShotEvent) (gid : ℤ) (t c : ℕ) :
    attemptsAt gx gy binSec bins (es ++ [e]) gid t c
      = attemptsAt gx gy binSec bins es gid t c ∧
    makesAt gx gy binSec bins (es ++ [e]) gid t c
      = makesAt gx gy binSec bins es gid t c ∧
    pointsAt gx gy binSec bins (es ++ [e]) gid t c
      = pointsAt gx gy binSec bins es gid t c ∧
    efgAt gx gy binSec bins (es ++ [e]) gid t c
      = efgAt gx gy binSec bins es gid t c := by
  refine ⟨?_, ?_, ?_, ?_⟩
  · simp [attemptsAt, List.countP_append, List.countP_cons, h gid t c]
  · simp [makesAt, List.countP_append, List.countP_cons, h gid t c]
  · simp [pointsAt, List.filter_append, List.filter_cons, h gid t c]
  · simp [efgAt, List.filter_append, List.filter_cons, h gid t c]

theorem bleagueChannelAt_append_inert (gx gy binSec : ℕ) (e : ShotEvent)
    (h : ∀ gid t c, retainedAt gx gy binSec
      (numTimeBins bleagueTotalDuration binSec) gid t c e = false)
    (es : List ShotEvent) (gid : ℤ) (t c : ℕ)
    (ch : Fin bleagueNumChannels) :
    bleagueChannelAt gx gy binSec (es ++ [e]) gid t c ch
      = bleagueChannelAt gx gy binSec es gid t c ch := by
  obtain ⟨h0, h1, h2, h3⟩ :=
    channels_append_inert gx gy binSec
      (numTimeBins bleagueTotalDuration binSec) e h es gid t c
  simp [bleagueChannelAt, h0, h1, h2, h3]

theorem nbaChannelAt_append_inert (gx gy binSec : ℕ) (e : ShotEvent)
    (h : ∀ gid t c, retainedAt gx gy binSec
      (numTimeBins nbaTotalDuration binSec) gid t c e = false)
    (es : List ShotEvent) (gid : ℤ) (t c : ℕ) (ch : Fin nbaNumChannels) :
    nbaChannelAt gx gy binSec (es ++ [e]) gid t c ch
      = nbaChannelAt gx gy binSec es gid t c ch := by
  obtain ⟨h0, h1, h2, h3⟩ :=
    channels_append_inert gx gy binSec
      (numTimeBins nbaTotalDuration binSec) e h es gid t c
  simp [nbaChannelAt, h0, h1, h2, h3]

/-- C10: upper-boundary inputs are excluded by every builder.  An event
whose elapsed time equals the total game duration has time bin equal to
the configured bin count (when the bin width divides the duration) and
contributes to no channel of any cell; an event whose x coordinate equals
the top x edge 250 or whose y coordinate equals the top y edge 422.5
contributes nothing; and a coordinate exactly on an interior edge i is
assigned to bin i (edges are lower-inclusive, the top edge exclusive). -/
theorem C10_upper_boundary_exclusive (gx gy binSec : ℕ) (hgx : 0 < gx)
    (hgy : 0 < gy) (hbin : 0 < binSec) (e : ShotEvent) :
    (binSec ∣ bleagueTotalDuration → e.elapsed = bleagueTotalDuration →
      timeBin binSec e = numTimeBins bleagueTotalDuration binSec ∧
      ∀ es gid t c ch, bleagueChannelAt gx gy binSec (es ++ [e]) gid t c ch
        = bleagueChannelAt gx gy binSec es gid t c ch) ∧
    (binSec ∣ nbaTotalDuration → e.elapsed = nbaTotalDuration →
      timeBin binSec e = numTimeBins nbaTotalDuration binSec ∧
      ∀ es gid t c ch, nbaChannelAt gx gy binSec (es ++ [e]) gid t c ch
        = nbaChannelAt gx gy binSec es gid t c ch) ∧
    (e.locX = 250 ∨ e.locY = 845/2 →
      (∀ es gid t c ch, bleagueChannelAt gx gy binSec (es ++ [e]) gid t c ch
        = bleagueChannelAt gx gy binSec es gid t c ch) ∧
      (∀ es gid t c ch, nbaChannelAt gx gy binSec (es ++ [e]) gid t c ch
        = nbaChannelAt gx gy binSec es gid t c ch)) ∧
    (∀ i : ℕ, i < gx → xBin gx (xEdge gx i) = i) ∧
    (∀ i : ℕ, i < gy → yBin gy (yEdge gy i) = i) := by
  refine ⟨?_, ?_, ?_, fun i hi => xBin_edge gx hgx i hi,
    fun i hi => yBin_edge gy hgy i hi⟩
  · intro hdvd he
    have ht := timeBin_at_total binSec bleagueTotalDuration hbin hdvd e he
    exact ⟨ht, fun es gid t c ch =>
      bleagueChannelAt_append_inert gx gy binSec e
        (fun gid t c => retained_false_of_big_timeBin gx gy binSec _ gid t c e
          (le_of_eq ht.symm)) es gid t c ch⟩
  · intro hdvd he
    have ht := timeBin_at_total binSec nbaTotalDuration hbin hdvd e he
    exact ⟨ht, fun es gid t c ch =>
      nbaChannelAt_append_inert gx gy binSec e
        (fun gid t c => retained_false_of_big_timeBin gx gy binSec _ gid t c e
          (le_of_eq ht.symm)) es gid t c ch⟩
  · intro hxy
    have hin : inGrid gx gy e = false := by
      rcases hxy with hx | hy
      · exact inGrid_false_of_xBin_top gx gy e (by rw [hx]; exact xBin_top gx hgx)
      · exact inGrid_false_of_yBin_top gx gy e (by rw [hy]; exact yBin_top gy hgy)
    exact ⟨fun es gid t c ch =>
      bleagueChannelAt_append_inert gx gy binSec e
        (fun gid t c => retained_false_of_inGrid_false gx gy binSec _ gid t c e hin)
        es gid t c ch,
      fun es gid t c ch =>
      nbaChannelAt_append_inert gx gy binSec e
        (fun gid t c => retained_false_of_inGrid_false gx gy binSec _ gid t c e hin)
        es gid t c ch⟩

theorem C10_upper_boundary_exclusive_witness :
    bleagueChannelAt 17 16 600 ([] ++ [endOfGameEvent]) 1 0 0 ⟨0, by decide⟩
      = bleagueChannelAt 17 16 600 [] 1 0 0 ⟨0, by decide⟩ :=
  ((C10_upper_boundary_exclusive 17 16 600 (by decide) (by decide) (by decide)
    endOfGameEvent).1 ⟨4, rfl⟩ rfl).2 [] 1 0 0 ⟨0, by decide⟩

theorem countP_and_split {α : Type} (p q : α → Bool) (l : List α) :
    l.countP p = l.countP (fun a => p a && q a)
      + l.countP (fun a => p a && !q a) := by
  induction l with
  | nil => simp
  | cons a l ih =>
    rw [List.countP_cons, List.countP_cons, List.countP_cons]
    cases hp : p a <;> cases hq : q a <;> simp [hp, hq] <;> omega

/-- C3: in both builders, the misses channel (index 4) equals attempts
minus makes at every (game, time bin, cell); equivalently it agrees with
what per-event accumulation of misses would have produced, even though it
is computed once after the accumulation pass. -/
theorem C3_misses_invariant (gx gy binSec : ℕ) (es : List ShotEvent)
    (gid : ℤ) (t c : ℕ) :
    nbaChannelAt gx gy binSec es gid t c ⟨4, by decide⟩
      = nbaChannelAt gx gy binSec es gid t c ⟨0, by decide⟩
        - nbaChannelAt gx gy binSec es gid t c ⟨1, by decide⟩ ∧
    bleagueChannelAt gx gy binSec es gid t c ⟨4, by decide⟩
      = bleagueChannelAt gx gy binSec es gid t c ⟨0, by decide⟩
        - bleagueChannelAt gx gy binSec es gid t c ⟨1, by decide⟩ ∧
    nbaChannelAt gx gy binSec es gid t c ⟨4, by decide⟩
      = perEventMissesAt gx gy binSec (numTimeBins nbaTotalDuration binSec)
          es gid t c ∧
    bleagueChannelAt gx gy binSec es gid t c ⟨4, by decide⟩
      = perEventMissesAt gx gy binSec
          (numTimeBins bleagueTotalDuration binSec) es gid t c := by
  have key : ∀ bins,
      attemptsAt gx gy binSec bins es gid t c
        - makesAt gx gy binSec bins es gid t c
      = perEventMissesAt gx gy binSec bins es gid t c := by
    intro bins
    have h := countP_and_split (retainedAt gx gy binSec bins gid t c)
      (fun e => e.made) es
    have hq : (es.countP (retainedAt gx gy binSec bins gid t c) : ℚ)
        = (es.countP
            (fun e => retainedAt gx gy binSec bins gid t c e && e.made) : ℚ)
          + (es.countP
            (fun e => retainedAt gx gy binSec bins gid t c e && !e.made) : ℚ) := by
      exact_mod_cast congrArg (Nat.cast : ℕ → ℚ) h
    rw [attemptsAt, makesAt, perEventMissesAt, hq]
    ring
  exact ⟨by simp [nbaChannelAt], by simp [bleagueChannelAt],
    by simpa [nbaChannelAt] using key (numTimeBins nbaTotalDuration binSec),
    by simpa [bleagueChannelAt] using
      key (numTimeBins bleagueTotalDuration binSec)⟩

/-- C4 (counterexample): the NBA builder produces tensors with only 5
channels, so it has no frequency channel at index 5; the claim that every
builder's tensor contains a frequency channel is false for it. -/
theorem C4_nba_has_no_frequency_channel :
    nbaNumChannels = 5 ∧ ¬ 5 < nbaNumChannels := by decide

/-- C4 (amended): the B.League builder produces 6 channels and its
frequency channel (index 5) is elementwise equal to the attempts channel
(index 0) at build time; the NBA builder produces only 5 channels and no
frequency channel. -/
theorem C4_frequency_is_attempts_copy (gx gy binSec : ℕ)
    (es : List ShotEvent) (gid : ℤ) (t c : ℕ) :
    bleagueChannelAt gx gy binSec es gid t c ⟨5, by decide⟩
      = bleagueChannelAt gx gy binSec es gid t c ⟨0, by decide⟩ ∧
    bleagueNumChannels = 6 ∧ nbaNumChannels = 5 := by
  exact ⟨by simp [bleagueChannelAt], rfl, rfl⟩

theorem C5_volume_normalization_witness :
    volumeNormalize volTen 0 0 0 ⟨5, by omega⟩ * totalAttempts volTen 0
      = volTen 0 0 0 ⟨5, by omega⟩ :=
  ((C5_volume_normalization volTen 0 0 0 ⟨5, by omega⟩).2.2 rfl).2 (by with_unfolding_all decide)

end ShotPerf
